import Mathlib

/-!
Shallow embedding of the pokedex-dictgen extractor core (src/index.rs,
src/mon.rs, src/xhtml.rs) and proofs about its specified behaviour.

Machine integers are modelled as Nat with explicit bounds or wrap-around
(mod 2^32) where the source performs u32 arithmetic.  External library
collaborators (URL join, the image cache, percent-encoding) are passed in
as explicit function parameters.
-/

namespace Dictgen

/-! ## Decimal digits (model of Rust integer formatting/parsing) -/

/-- One decimal digit rendered as a character. -/
def digitChar (d : Nat) : Char :=
  match d with
  | 0 => '0' | 1 => '1' | 2 => '2' | 3 => '3' | 4 => '4'
  | 5 => '5' | 6 => '6' | 7 => '7' | 8 => '8' | 9 => '9'
  | _ => '*'

/-- Numeric value of a decimal digit character. -/
def digitVal (c : Char) : Nat := c.toNat - 48

/-- Decimal digits of a natural number, most significant first
(model of Rust decimal rendering; never empty, "0" for zero). -/
def natDigits (n : Nat) : List Char :=
  if _h : n < 10 then [digitChar n]
  else natDigits (n / 10) ++ [digitChar (n % 10)]
decreasing_by exact Nat.div_lt_self (by omega) (by omega)

/-- Value denoted by a digit string (most significant first). -/
def digitsVal (l : List Char) : Nat :=
  l.foldl (fun a c => 10 * a + digitVal c) 0

theorem digitChar_val (d : Nat) (hd : d < 10) :
    digitVal (digitChar d) = d := by
  interval_cases d <;> decide

theorem digitChar_isDigit (d : Nat) (hd : d < 10) :
    (digitChar d).isDigit = true := by
  interval_cases d <;> decide

theorem natDigits_ne_nil (n : Nat) : natDigits n ≠ [] := by
  unfold natDigits
  split <;> simp

theorem natDigits_all_isDigit (n : Nat) :
    ∀ c ∈ natDigits n, c.isDigit = true := by
  induction n using Nat.strong_induction_on with
  | _ n ih =>
    unfold natDigits
    split
    · next h =>
      intro c hc
      simp only [List.mem_singleton] at hc
      subst hc
      exact digitChar_isDigit n h
    · next h =>
      intro c hc
      simp only [List.mem_append, List.mem_singleton] at hc
      rcases hc with hc | hc
      · exact ih (n / 10) (Nat.div_lt_self (by omega) (by omega)) c hc
      · subst hc
        exact digitChar_isDigit (n % 10) (Nat.mod_lt _ (by omega))

theorem digitsVal_foldl_acc (l : List Char) (a : Nat) :
    l.foldl (fun a c => 10 * a + digitVal c) a =
      a * 10 ^ l.length + digitsVal l := by
  induction l generalizing a with
  | nil => simp [digitsVal]
  | cons c l ih =>
    simp only [List.foldl_cons, List.length_cons, digitsVal]
    rw [ih, ih (10 * 0 + digitVal c)]
    ring

theorem digitsVal_natDigits (n : Nat) : digitsVal (natDigits n) = n := by
  induction n using Nat.strong_induction_on with
  | _ n ih =>
    unfold natDigits
    split
    · next h =>
      simp [digitsVal, List.foldl, digitChar_val n h]
    · next h =>
      simp only [digitsVal, List.foldl_append, List.foldl_cons, List.foldl_nil]
      have := digitsVal_foldl_acc (natDigits (n / 10)) 0
      have hrec := ih (n / 10) (Nat.div_lt_self (by omega) (by omega))
      simp only [digitsVal] at hrec
      rw [hrec, digitChar_val (n % 10) (Nat.mod_lt _ (by omega))]
      omega

theorem digitsVal_replicate_zero_append (k : Nat) (l : List Char) :
    digitsVal (List.replicate k '0' ++ l) = digitsVal l := by
  induction k with
  | zero => simp
  | succ k ih =>
    simp only [List.replicate_succ, List.cons_append, digitsVal, List.foldl_cons]
    have : 10 * 0 + digitVal '0' = 0 := by decide
    rw [this]
    exact ih

/-! ## DexId (src/index.rs)

Rust: a newtype over u32.  `from_str` strips one leading '#', then parses
with u32::from_str (optional sign; digit string; value below 2^32; a
negative sign is accepted only when the denoted value is 0).  `Display`
writes "#" followed by the value zero-padded to at least four digits.
`prev` returns the predecessor when the value exceeds 1; `next` adds one
(u32 arithmetic, modelled with wrap-around mod 2^32). -/

structure DexId where
  val : Nat
deriving DecidableEq, Repr

/-- Digit-run parse after a positive (or absent) sign: succeeds on a
nonempty all-digit run whose value fits in u32 (the checked_mul/add chain
in Rust's from_str_radix fails exactly when the value reaches 2^32). -/
def parseDigitsPos (ds : List Char) : Option Nat :=
  if ds = [] then none
  else if ds.all Char.isDigit then
    if digitsVal ds < 2 ^ 32 then some (digitsVal ds) else none
  else none

/-- Digit-run parse after a negative sign on an unsigned type: the
checked_sub chain in Rust's from_str_radix succeeds only when every digit
is zero, i.e. when the denoted value is 0. -/
def parseDigitsNeg (ds : List Char) : Option Nat :=
  if ds = [] then none
  else if ds.all Char.isDigit then
    if digitsVal ds = 0 then some 0 else none
  else none

/-- Model of Rust u32::from_str over a character list. -/
def parseU32Chars (l : List Char) : Option Nat :=
  match l with
  | [] => none
  | c :: rest =>
    if c = '+' then parseDigitsPos rest
    else if c = '-' then parseDigitsNeg rest
    else parseDigitsPos l

/-- Model of Rust u32::from_str on a string. -/
def parseU32 (s : String) : Option Nat := parseU32Chars s.data

/-- Strip one leading '#' if present (Rust str::strip applied to '#',
falling back to the whole string). -/
def stripHash (cs : List Char) : List Char :=
  match cs with
  | '#' :: rest => rest
  | cs => cs

/-- DexId::from_str: strip one leading '#', then u32 parse. -/
def DexId.fromStr (s : String) : Option DexId :=
  (parseU32Chars (stripHash s.data)).map DexId.mk

theorem stripHash_hash (rest : List Char) : stripHash ('#' :: rest) = rest := rfl

theorem data_mk (l : List Char) : (String.mk l).data = l := rfl

theorem stripHash_cons_ne (c : Char) (rest : List Char) (h : c ≠ '#') :
    stripHash (c :: rest) = c :: rest := by
  unfold stripHash
  split
  · next heq =>
    injection heq with h1 _
    exact absurd h1 h
  · rfl

/-- DexId Display: "#" then the value zero-padded to at least 4 digits. -/
def DexId.format (d : DexId) : String :=
  let digits := natDigits d.val
  String.mk ('#' :: (List.replicate (4 - digits.length) '0' ++ digits))

/-- DexId::prev. -/
def DexId.prev (d : DexId) : Option DexId :=
  if d.val > 1 then some ⟨d.val - 1⟩ else none

/-- DexId::next (u32 addition, wrap-around on overflow). -/
def DexId.next (d : DexId) : DexId := ⟨(d.val + 1) % 2 ^ 32⟩

theorem parseDigitsPos_digits (l : List Char) (hne : l ≠ [])
    (hdig : ∀ c ∈ l, c.isDigit = true) (hlt : digitsVal l < 2 ^ 32) :
    parseDigitsPos l = some (digitsVal l) := by
  unfold parseDigitsPos
  rw [if_neg hne, if_pos (by simpa [List.all_eq_true] using hdig), if_pos hlt]

theorem parseU32Chars_digits (l : List Char) (hne : l ≠ [])
    (hdig : ∀ c ∈ l, c.isDigit = true) (hlt : digitsVal l < 2 ^ 32) :
    parseU32Chars l = some (digitsVal l) := by
  match l with
  | [] => exact absurd rfl hne
  | c :: rest =>
    have hc : c.isDigit = true := hdig c (by simp)
    have hcp : ¬ c = '+' := by
      intro h; subst h; simp [Char.isDigit] at hc
    have hcm : ¬ c = '-' := by
      intro h; subst h; simp [Char.isDigit] at hc
    simp only [parseU32Chars, if_neg hcp, if_neg hcm]
    exact parseDigitsPos_digits _ hne hdig hlt

theorem DexId.fromStr_format (d : DexId) (h : d.val < 2 ^ 32) :
    DexId.fromStr d.format = some d := by
  unfold DexId.format DexId.fromStr
  simp only [data_mk, stripHash_hash]
  have hall : ∀ c ∈ List.replicate (4 - (natDigits d.val).length) '0' ++
      natDigits d.val, c.isDigit = true := by
    intro c hc
    rcases List.mem_append.mp hc with hc | hc
    · rw [List.eq_of_mem_replicate hc]; decide
    · exact natDigits_all_isDigit d.val c hc
  have hne : List.replicate (4 - (natDigits d.val).length) '0' ++
      natDigits d.val ≠ [] := by
    simp [natDigits_ne_nil]
  have hval : digitsVal (List.replicate (4 - (natDigits d.val).length) '0' ++
      natDigits d.val) = d.val := by
    rw [digitsVal_replicate_zero_append, digitsVal_natDigits]
  rw [parseU32Chars_digits _ hne hall (by rw [hval]; exact h), hval]
  rfl

theorem parseDigitsPos_lt (l : List Char) (n : Nat)
    (h : parseDigitsPos l = some n) : n < 2 ^ 32 := by
  unfold parseDigitsPos at h
  split at h
  · exact absurd h (by simp)
  · split at h
    · split at h
      · next hlt => rw [Option.some_inj] at h; omega
      · exact absurd h (by simp)
    · exact absurd h (by simp)

theorem parseDigitsNeg_lt (l : List Char) (n : Nat)
    (h : parseDigitsNeg l = some n) : n < 2 ^ 32 := by
  unfold parseDigitsNeg at h
  split at h
  · exact absurd h (by simp)
  · split at h
    · split at h
      · rw [Option.some_inj] at h; omega
      · exact absurd h (by simp)
    · exact absurd h (by simp)

/-- Every parsed u32 value is below 2^32. -/
theorem parseU32Chars_lt (l : List Char) (n : Nat)
    (h : parseU32Chars l = some n) : n < 2 ^ 32 := by
  match l with
  | [] => simp [parseU32Chars] at h
  | c :: rest =>
    simp only [parseU32Chars] at h
    split at h
    · exact parseDigitsPos_lt _ _ h
    · split at h
      · exact parseDigitsNeg_lt _ _ h
      · exact parseDigitsPos_lt _ _ h

/-- C7 (counterexample): the id with value 2^32 - 1 is representable and
supports a predecessor, yet u32 wrap-around in next() makes
predecessor(successor(n)) = none, not n. -/
theorem c7_prev_next_counterexample :
    (DexId.mk (2 ^ 32 - 1)).prev = some (DexId.mk (2 ^ 32 - 2)) ∧
      (DexId.mk (2 ^ 32 - 1)).next.prev = none := by
  constructor
  · rw [DexId.prev, if_pos (by norm_num)]
    norm_num
  · rw [DexId.next]
    norm_num [DexId.prev]

/-- C7 (amended): for every representable CatalogId value n,
parse(format(n)) = n; and predecessor(successor(n)) = n whenever n
supports a predecessor and its successor does not overflow u32. -/
theorem c7_roundtrip_and_pred_succ (d : DexId) (h : d.val < 2 ^ 32) :
    DexId.fromStr d.format = some d ∧
      (d.prev.isSome = true → d.val + 1 < 2 ^ 32 → d.next.prev = some d) := by
  refine ⟨DexId.fromStr_format d h, fun hp hov => ?_⟩
  rw [DexId.prev] at hp
  have hv : d.val > 1 := by
    by_contra hc
    rw [if_neg hc] at hp
    simp at hp
  rw [DexId.next, Nat.mod_eq_of_lt hov]
  show (if d.val + 1 > 1 then some (DexId.mk (d.val + 1 - 1)) else none) = some d
  rw [if_pos (by omega)]
  have hsub : d.val + 1 - 1 = d.val := by omega
  rw [hsub]

/-- C7 witness at id 7. -/
theorem c7_witness :
    DexId.fromStr (DexId.mk 7).format = some (DexId.mk 7) ∧
      (DexId.mk 7).next.prev = some (DexId.mk 7) := by
  have h := c7_roundtrip_and_pred_succ (DexId.mk 7) (by norm_num)
  exact ⟨h.1, h.2 (by decide) (by norm_num)⟩

/-- C9 (counterexample): parsing "0" succeeds and yields the id 0, whose
denoted integer is not at least 1 — strict positivity is not enforced by
DexId::from_str. -/
theorem c9_zero_counterexample :
    DexId.fromStr "0" = some (DexId.mk 0) ∧ (DexId.mk 0).val < 1 := by
  constructor
  · rfl
  · decide

/-- C9 (amended): parsing succeeds on every decimal string denoting a
nonnegative integer below 2^32, with or without the leading marker
character (0 included, so strict positivity is not enforced); every
parsed id is below 2^32; and formatting id 7 yields "#0007". -/
theorem c9_parse_characterization :
    (∀ s d, DexId.fromStr s = some d → d.val < 2 ^ 32) ∧
      (∀ n, n < 2 ^ 32 →
        DexId.fromStr (String.mk (natDigits n)) = some (DexId.mk n) ∧
          DexId.fromStr (String.mk ('#' :: natDigits n)) = some (DexId.mk n)) ∧
      (DexId.mk 7).format = "#0007" := by
  have h7 : natDigits 7 = ['7'] := by
    rw [natDigits]
    decide
  refine ⟨?_, ?_, by unfold DexId.format; rw [h7]; rfl⟩
  · intro s d h
    unfold DexId.fromStr at h
    rcases ho : parseU32Chars (stripHash s.data) with _ | n
    · rw [ho] at h; simp at h
    · rw [ho] at h
      have hd : DexId.mk n = d := by simpa using h
      rw [← hd]
      exact parseU32Chars_lt _ _ ho
  · intro n hn
    have hparse : parseU32Chars (natDigits n) = some n := by
      rw [parseU32Chars_digits (natDigits n) (natDigits_ne_nil n)
        (natDigits_all_isDigit n)
        (by rw [digitsVal_natDigits]; exact hn), digitsVal_natDigits]
    constructor
    · unfold DexId.fromStr
      rcases hd : natDigits n with _ | ⟨c, rest⟩
      · exact absurd hd (natDigits_ne_nil n)
      · have hcne : c ≠ '#' := by
          intro hc
          have hdig : c.isDigit = true :=
            natDigits_all_isDigit n c (hd ▸ List.mem_cons_self c rest)
          rw [hc] at hdig
          simp [Char.isDigit] at hdig
        rw [stripHash_cons_ne c rest hcne, ← hd, hparse]
        rfl
    · unfold DexId.fromStr
      simp only [data_mk, stripHash_hash]
      rw [hparse]
      rfl

/-- C9 witness: the amended completeness instance at n = 42. -/
theorem c9_witness :
    DexId.fromStr (String.mk ('#' :: natDigits 42)) = some (DexId.mk 42) :=
  (c9_parse_characterization.2.1 42 (by norm_num)).2

/-! ## URL model

The source uses the url crate.  A URL is modelled by its components;
`domain` is the host (the code only ever meets domain hosts), and
`pathSegments` models Url::path_segments on hierarchical URLs: the path
after its leading '/' split on '/'. -/

structure Url where
  scheme : String
  host : Option String
  port : Option Nat
  path : String
  query : Option String
  fragment : Option String
deriving DecidableEq, Repr

def Url.domain (u : Url) : Option String := u.host

/-- Split a character list at every occurrence of the separator (the
semantics of Rust str::split on a char pattern). -/
def splitOnChar (sep : Char) : List Char → List (List Char)
  | [] => [[]]
  | c :: rest =>
    if c = sep then [] :: splitOnChar sep rest
    else
      match splitOnChar sep rest with
      | [] => [[c]]
      | x :: xs => (c :: x) :: xs

def dropLeadingSlash : List Char → List Char
  | '/' :: rest => rest
  | cs => cs

/-- Url::path_segments on a hierarchical URL: the path after its leading
'/' split on '/'. -/
def Url.pathSegments (u : Url) : List String :=
  (splitOnChar '/' (dropLeadingSlash u.path.data)).map String.mk

/-- Does the list start with the given pattern? -/
def listStartsWith [DecidableEq α] : List α → List α → Bool
  | _, [] => true
  | [], _ :: _ => false
  | a :: as, b :: bs => if a = b then listStartsWith as bs else false

/-- Does the list contain the pattern as a contiguous subsequence? -/
def listContainsSeq [DecidableEq α] : List α → List α → Bool
  | l@(_ :: rest), pat => listStartsWith l pat || listContainsSeq rest pat
  | [], pat => pat.isEmpty

/-- str::contains on string patterns (substring containment). -/
def containsSubstr (s pat : String) : Bool := listContainsSeq s.data pat.data

/-- str::starts_with on string patterns. -/
def startsWithStr (s pat : String) : Bool := listStartsWith s.data pat.data

/-! ## get_image_thumbnail_origin (src/mon.rs lines 476-499) -/

/-- Rewrites a resized-thumbnail URL on the media-archive domain back to
its canonical asset URL, mirroring the source's early returns: wrong
domain or no "/thumb/" in the path gives none; then the leading path
segments must be media, upload, thumb followed by at least three more. -/
def get_image_thumbnail_origin (src : Url) : Option Url :=
  if src.domain ≠ some "archives.bulbagarden.net" ∨
      containsSubstr src.path "/thumb/" = false then none
  else
    match src.pathSegments with
    | "media" :: "upload" :: "thumb" :: a :: b :: fileName :: _ =>
      some { src with path := "/media/upload/" ++ a ++ "/" ++ b ++ "/" ++ fileName }
    | _ => none

/-- The worked thumbnail example URL from the spec. -/
def bulbaThumbExample : Url :=
  { scheme := "https", host := some "archives.bulbagarden.net", port := none,
    path := "/media/upload/thumb/a/ab/File.png/200px-File.png",
    query := none, fragment := none }

/-- Its canonical origin. -/
def bulbaOriginExample : Url :=
  { scheme := "https", host := some "archives.bulbagarden.net", port := none,
    path := "/media/upload/a/ab/File.png",
    query := none, fragment := none }

/-- C2: get_image_thumbnail_origin returns a result exactly when the
domain is the media-archive domain, the path contains "/thumb/", and the
leading segments are media, upload, thumb followed by at least three
more; the result rewrites the path to /media/upload/a/b/file and keeps
every other component; and the spec's worked example reconstructs as
stated. -/
theorem c2_thumbnail_origin_characterization :
    (∀ u v, get_image_thumbnail_origin u = some v ↔
      u.domain = some "archives.bulbagarden.net" ∧
        containsSubstr u.path "/thumb/" = true ∧
        ∃ a b fileName rest,
          u.pathSegments = "media" :: "upload" :: "thumb" :: a :: b ::
            fileName :: rest ∧
          v = { u with
            path := "/media/upload/" ++ a ++ "/" ++ b ++ "/" ++ fileName }) ∧
      get_image_thumbnail_origin bulbaThumbExample = some bulbaOriginExample := by
  constructor
  · intro u v
    unfold get_image_thumbnail_origin
    split
    · next hcond =>
      constructor
      · intro h; simp at h
      · rintro ⟨hdom, hthumb, _⟩
        rcases hcond with hcond | hcond
        · exact absurd hdom hcond
        · rw [hthumb] at hcond; simp at hcond
    · next hcond =>
      push_neg at hcond
      obtain ⟨hdom, hthumb⟩ := hcond
      have hthumb' : containsSubstr u.path "/thumb/" = true := by
        cases hth : containsSubstr u.path "/thumb/"
        · exact absurd hth hthumb
        · rfl
      constructor
      · intro h
        split at h
        · next a b fileName rest hseg =>
          refine ⟨hdom, hthumb', a, b, fileName, rest, hseg, ?_⟩
          rw [Option.some_inj] at h
          exact h.symm
        · simp at h
      · rintro ⟨_, _, a, b, fileName, rest, hseg, hv⟩
        split
        · next a' b' f' rest' hseg' =>
          rw [hseg] at hseg'
          injection hseg' with _ h2
          injection h2 with _ h3
          injection h3 with _ h4
          injection h4 with ha h5
          injection h5 with hb h6
          injection h6 with hf _
          rw [hv, ha, hb, hf]
        · next hno =>
          exact (hno a b fileName rest hseg).elim
  · decide

/-! ## Association-map model of BTreeMap<String, String> and attributes -/

/-- Lookup in an association list with unique keys (BTreeMap::get). -/
def getA : List (String × String) → String → Option String
  | [], _ => none
  | p :: rest, k => if p.1 = k then some p.2 else getA rest k

/-- Insert-or-replace (BTreeMap::insert / attribute map insert). -/
def insertA : List (String × String) → String → String → List (String × String)
  | [], k, v => [(k, v)]
  | p :: rest, k, v => if p.1 = k then (k, v) :: rest else p :: insertA rest k v

/-- Remove a key (BTreeMap::remove / attribute map remove). -/
def removeA : List (String × String) → String → List (String × String)
  | [], _ => []
  | p :: rest, k => if p.1 = k then removeA rest k else p :: removeA rest k

/-- Collecting an iterator of pairs into a BTreeMap: sequential inserts,
later pairs overwrite earlier ones. -/
def mapFromList (l : List (String × String)) : List (String × String) :=
  l.foldl (fun m p => insertA m p.1 p.2) []

/-- Last-wins lookup directly on a raw pair list. -/
def lookupLast : List (String × String) → String → Option String
  | [], _ => none
  | p :: rest, k =>
    (lookupLast rest k).or (if p.1 = k then some p.2 else none)

theorem getA_insertA_self (m : List (String × String)) (k v : String) :
    getA (insertA m k v) k = some v := by
  induction m with
  | nil => simp [insertA, getA]
  | cons p rest ih =>
    unfold insertA
    by_cases h : p.1 = k
    · rw [if_pos h]; simp [getA]
    · rw [if_neg h]
      unfold getA
      rw [if_neg h]
      exact ih

theorem getA_insertA_ne (m : List (String × String)) (k v k' : String)
    (h : k' ≠ k) : getA (insertA m k v) k' = getA m k' := by
  have hne : ¬ k = k' := fun hc => h hc.symm
  induction m with
  | nil => simp [insertA, getA, hne]
  | cons p rest ih =>
    by_cases hp : p.1 = k
    · simp [insertA, getA, hp, hne]
    · by_cases hpk : p.1 = k'
      · simp [insertA, getA, hp, hpk, h]
      · simp [insertA, getA, hp, hpk, ih]

theorem getA_mapFromList_acc (l : List (String × String))
    (m : List (String × String)) (k : String) :
    getA (l.foldl (fun m p => insertA m p.1 p.2) m) k =
      (lookupLast l k).or (getA m k) := by
  induction l generalizing m with
  | nil => simp [lookupLast]
  | cons p rest ih =>
    simp only [List.foldl_cons, lookupLast]
    rw [ih, Option.or_assoc]
    congr 1
    by_cases hp : p.1 = k
    · rw [if_pos hp, hp, getA_insertA_self]
      simp
    · rw [if_neg hp, getA_insertA_ne _ _ _ _ (fun hc => hp hc.symm)]
      simp

theorem getA_mapFromList (l : List (String × String)) (k : String) :
    getA (mapFromList l) k = lookupLast l k := by
  unfold mapFromList
  rw [getA_mapFromList_acc]
  simp [getA]

/-! ## get_highest_quality_src (src/mon.rs lines 449-474) -/

/-- Trim ASCII whitespace from both ends (model of str::trim). -/
def trimChars (cs : List Char) : List Char :=
  ((cs.dropWhile Char.isWhitespace).reverse.dropWhile Char.isWhitespace).reverse

def trimStr (s : String) : String := String.mk (trimChars s.data)

/-- Split a character list at the LAST occurrence of the separator
(str::rsplit_once, with the pieces in document order). -/
def rsplitOnceChar (sep : Char) : List Char → Option (List Char × List Char)
  | [] => none
  | c :: rest =>
    match rsplitOnceChar sep rest with
    | some p => some (c :: p.1, p.2)
    | none => if c = sep then some ([], rest) else none

/-- Attributes of an img node that the resolver consults. -/
structure ImgAttrs where
  srcset : Option String
  src : Option String
deriving DecidableEq, Repr

/-- The (descriptor, url) pairs parsed from a srcset attribute:
comma-separated entries, each split at its last space into url and
descriptor, the descriptor trimmed, entries without a space dropped. -/
def srcSetEntries (srcset : String) : List (String × String) :=
  (splitOnChar ',' srcset.data).filterMap fun entry =>
    (rsplitOnceChar ' ' entry).map fun p =>
      (String.mk (trimChars p.2), String.mk p.1)

/-- The source's descriptor map: collect the parsed pairs. -/
def srcSetMap (img : ImgAttrs) : List (String × String) :=
  mapFromList (srcSetEntries (img.srcset.getD ""))

/-- The descriptor map after the source inserts a "1x" entry from the
src attribute (empty default) when the map has no "1x" key. -/
def srcSetMapWithDefault (img : ImgAttrs) : List (String × String) :=
  if (getA (srcSetMap img) "1x").isSome then srcSetMap img
  else insertA (srcSetMap img) "1x" (img.src.getD "")

/-- get_highest_quality_src: candidate preference 2x, 1.5x, 1x; join the
choice against the base URL (failure gives none); when asked for the
thumbnail origin, fall back to the joined URL if reconstruction fails. -/
def get_highest_quality_src (img : ImgAttrs) (join : String → Option Url)
    (find_thumb_origin : Bool) : Option Url :=
  match (getA (srcSetMapWithDefault img) "2x").or
      ((getA (srcSetMapWithDefault img) "1.5x").or
        (getA (srcSetMapWithDefault img) "1x")) with
  | none => none
  | some src =>
    match join src with
    | none => none
    | some src =>
      if find_thumb_origin then (get_image_thumbnail_origin src).or (some src)
      else some src

/-- The descriptor-to-URL mapping as the spec words it: parsed pairs with
later duplicates overriding, and a synthesized "1x" entry from the plain
src attribute when none was parsed. -/
def specMapping (img : ImgAttrs) (k : String) : Option String :=
  match lookupLast (srcSetEntries (img.srcset.getD "")) k with
  | some v => some v
  | none => if k = "1x" then some (img.src.getD "") else none

/-- resolveBestSource as described by the spec text (not the source):
select "2x", else "1.5x", else "1x", none when no candidate; resolve
against the base; with preferCanonical, attempt thumbnail-origin
reconstruction and on failure fall back to the resolved URL. -/
def resolveBestSource_spec (img : ImgAttrs) (join : String → Option Url)
    (preferCanonical : Bool) : Option Url :=
  match (specMapping img "2x").or
      ((specMapping img "1.5x").or (specMapping img "1x")) with
  | none => none
  | some c =>
    match join c with
    | none => none
    | some u =>
      if preferCanonical then
        match get_image_thumbnail_origin u with
        | some canonical => some canonical
        | none => some u
      else some u

theorem getA_srcSetMapWithDefault (img : ImgAttrs) (k : String) :
    getA (srcSetMapWithDefault img) k = specMapping img k := by
  unfold srcSetMapWithDefault specMapping
  by_cases h1x : (getA (srcSetMap img) "1x").isSome
  · rw [if_pos h1x, srcSetMap, getA_mapFromList]
    rw [srcSetMap, getA_mapFromList] at h1x
    rcases hl : lookupLast (srcSetEntries (img.srcset.getD "")) k with _ | v
    · by_cases hk : k = "1x"
      · subst hk
        rw [hl] at h1x
        simp at h1x
      · simp [hk]
    · simp
  · rw [if_neg h1x]
    rw [srcSetMap, getA_mapFromList] at h1x
    by_cases hk : k = "1x"
    · subst hk
      rw [getA_insertA_self]
      rcases hl : lookupLast (srcSetEntries (img.srcset.getD "")) "1x" with _ | v
      · simp
      · rw [hl] at h1x
        simp at h1x
    · rw [getA_insertA_ne _ _ _ _ hk, srcSetMap, getA_mapFromList]
      rcases hl : lookupLast (srcSetEntries (img.srcset.getD "")) k with _ | v
      · simp [hk]
      · simp

/-- C1: the source's get_highest_quality_src coincides with the
resolver the spec describes, for every img node, base-URL join function
and preferCanonical flag: descriptor map parsed from srcset with a
synthesized "1x" from src, preference 2x then 1.5x then 1x, none when no
candidate, resolution against the base URL, and (under preferCanonical)
fallback to the resolved thumbnail URL when reconstruction fails. -/
theorem c1_get_highest_quality_src_refines_spec (img : ImgAttrs)
    (join : String → Option Url) (pc : Bool) :
    get_highest_quality_src img join pc = resolveBestSource_spec img join pc := by
  unfold get_highest_quality_src resolveBestSource_spec
  rw [getA_srcSetMapWithDefault, getA_srcSetMapWithDefault,
    getA_srcSetMapWithDefault]
  rcases (specMapping img "2x").or
      ((specMapping img "1.5x").or (specMapping img "1x")) with _ | c
  · rfl
  · show (match join c with
        | none => none
        | some src =>
          if pc = true then (get_image_thumbnail_origin src).or (some src)
          else some src) =
      match join c with
      | none => none
      | some u =>
        if pc = true then
          match get_image_thumbnail_origin u with
          | some canonical => some canonical
          | none => some u
        else some u
    rcases join c with _ | u
    · rfl
    · show (if pc = true then (get_image_thumbnail_origin u).or (some u)
          else some u) =
        if pc = true then
          match get_image_thumbnail_origin u with
          | some canonical => some canonical
          | none => some u
        else some u
      cases pc
      · rfl
      · show (get_image_thumbnail_origin u).or (some u) =
          match get_image_thumbnail_origin u with
          | some canonical => some canonical
          | none => some u
        rcases get_image_thumbnail_origin u with _ | v <;> rfl

/-! ## Info-box row classification (src/mon.rs lines 63-86)

The loop walks the element children of the info-box tbody: the first
becomes the header row; for every later row, a flag flips (permanently)
once the row's trimmed text starts with the marker label, and the row
goes to the extra collection when the flag is set, to the top collection
otherwise.  Rows are an arbitrary type with a text function. -/

def FIRST_EXTRA_INFO_BOX : String := "Gender ratio"

/-- Is this the marker row (trimmed text starts with the fixed label)? -/
def isMarkerRow {α : Type} (text : α → String) (r : α) : Bool :=
  startsWithStr (trimStr (text r)) FIRST_EXTRA_INFO_BOX

/-- The classification loop on the rows after the header row, carrying
the is_extra flag; returns (top rows, extra rows) in document order. -/
def classifyInfoRows {α : Type} (text : α → String) :
    Bool → List α → List α × List α
  | _, [] => ([], [])
  | isExtra, r :: rest =>
    let isExtra := isExtra || isMarkerRow text r
    let p := classifyInfoRows text isExtra rest
    if isExtra then (p.1, r :: p.2) else (r :: p.1, p.2)

/-- The whole stage: first element row is the reserved header row, the
rest are classified; none when there are no rows (source bails with
"no header box"). -/
def splitInfoRows {α : Type} (text : α → String) (rows : List α) :
    Option (α × List α × List α) :=
  match rows with
  | [] => none
  | header :: rest => some (header, classifyInfoRows text false rest)

theorem classifyInfoRows_extra {α : Type} (text : α → String)
    (rows : List α) : classifyInfoRows text true rows = ([], rows) := by
  induction rows with
  | nil => rfl
  | cons r rest ih =>
    unfold classifyInfoRows
    simp [ih]

/-- C3: after the reserved header row, the classifier partitions the
remaining rows exactly at the first row whose trimmed text starts with
the marker label: top is the rows strictly before it, extra is the rows
from it on (both in document order), and their concatenation is exactly
the non-header rows (hence the two collections are disjoint). -/
theorem c3_info_row_partition {α : Type} (text : α → String)
    (header : α) (rows : List α) :
    splitInfoRows text (header :: rows) =
        some (header, classifyInfoRows text false rows) ∧
      (classifyInfoRows text false rows).1 =
        rows.take (rows.findIdx (isMarkerRow text)) ∧
      (classifyInfoRows text false rows).2 =
        rows.drop (rows.findIdx (isMarkerRow text)) ∧
      (classifyInfoRows text false rows).1 ++
        (classifyInfoRows text false rows).2 = rows := by
  have key : ∀ l : List α,
      classifyInfoRows text false l =
        (l.take (l.findIdx (isMarkerRow text)),
         l.drop (l.findIdx (isMarkerRow text))) := by
    intro l
    induction l with
    | nil => rfl
    | cons r rest ih =>
      unfold classifyInfoRows
      rcases hm : isMarkerRow text r with _ | _
      · simp only [Bool.false_or, List.findIdx_cons, hm, cond_false, ih]
        simp [List.take_succ_cons, List.drop_succ_cons]
      · simp only [Bool.false_or, List.findIdx_cons, hm, cond_true]
        simp [classifyInfoRows_extra]
  refine ⟨rfl, ?_, ?_, ?_⟩
  · rw [key]
  · rw [key]
  · rw [key]
    exact List.take_append_drop _ rows

/-! ## Category fragment extraction (src/mon.rs lines 131-149)

The loop over the category container's children: a line-break element
pushes a new empty fragment; any other node's serialized markup is
appended to the last fragment (or becomes the first); finally one
trailing empty fragment, if present, is popped.  A child is modelled by
whether it is a br element, any other node by its serialization. -/

inductive CatNode where
  | br : CatNode
  | other : String → CatNode
deriving DecidableEq, Repr

/-- last_mut().push_str, or push when the list is empty. -/
def appendToLast (h : String) : List String → List String
  | [] => [h]
  | [x] => [x ++ h]
  | x :: xs => x :: appendToLast h xs

/-- One iteration of the category loop. -/
def catStep (acc : List String) (n : CatNode) : List String :=
  match n with
  | .br => acc ++ [""]
  | .other h => appendToLast h acc

/-- The loop over all children. -/
def buildCategories (nodes : List CatNode) : List String :=
  nodes.foldl catStep []

/-- The final pop of one trailing empty fragment. -/
def trimTrailingEmpty (l : List String) : List String :=
  if l.getLast? = some "" then l.dropLast else l

/-- The whole category extraction. -/
def extractCategories (nodes : List CatNode) : List String :=
  trimTrailingEmpty (buildCategories nodes)

/-- C8 (counterexample): the child sequence [br, br] builds ["", ""],
the final pop removes only one empty fragment, and the returned list
[""] ends with an empty fragment — the claimed invariant fails. -/
theorem c8_trailing_empty_counterexample :
    extractCategories [CatNode.br, CatNode.br] = [""] ∧
      (extractCategories [CatNode.br, CatNode.br]).getLast? = some "" := by
  constructor <;> rfl

/-- C8 (amended): the loop starts a new fragment at each line-break node
and concatenates any other node's markup onto the current fragment, and
the extraction discards a single trailing empty fragment; consequently
the returned list ends with a non-empty fragment whenever no fragment
other than the final one is empty (with two or more trailing line breaks
it can still end with an empty fragment). -/
theorem c8_category_fragments (nodes : List CatNode)
    (h : ∀ s ∈ (buildCategories nodes).dropLast, s ≠ "") :
    buildCategories (nodes ++ [CatNode.br]) = buildCategories nodes ++ [""] ∧
      (∀ html, buildCategories (nodes ++ [CatNode.other html]) =
        appendToLast html (buildCategories nodes)) ∧
      (∀ last, (extractCategories nodes).getLast? = some last →
        last ≠ "") := by
  refine ⟨?_, fun html => ?_, fun last hlast => ?_⟩
  · unfold buildCategories
    rw [List.foldl_append]
    rfl
  · unfold buildCategories
    rw [List.foldl_append]
    rfl
  · unfold extractCategories trimTrailingEmpty at hlast
    by_cases hb : (buildCategories nodes).getLast? = some ""
    · rw [if_pos hb] at hlast
      have hmem : last ∈ (buildCategories nodes).dropLast := by
        have hx : last ∈ ((buildCategories nodes).dropLast).getLast? :=
          Option.mem_def.mpr hlast
        obtain ⟨hne, heq⟩ := List.mem_getLast?_eq_getLast hx
        exact heq ▸ List.getLast_mem hne
      exact h last hmem
    · rw [if_neg hb] at hlast
      intro hc
      rw [hc] at hlast
      exact hb hlast

/-- C8 witness: the amended statement at the sequence
[other "a", br, other "b"], whose only possibly-empty fragment is the
final one. -/
theorem c8_category_fragments_witness :
    buildCategories ([CatNode.other "a", CatNode.br, CatNode.other "b"] ++
        [CatNode.br]) =
      buildCategories [CatNode.other "a", CatNode.br, CatNode.other "b"] ++
        [""] ∧
      (∀ last, (extractCategories
          [CatNode.other "a", CatNode.br, CatNode.other "b"]).getLast? =
            some last → last ≠ "") := by
  have h := c8_category_fragments
    [CatNode.other "a", CatNode.br, CatNode.other "b"] (by decide)
  exact ⟨h.1, h.2.2⟩

/-! ## Strict serializer escaping (src/xhtml.rs)

XhtmlEscaped walks the characters and escapes per mode, in the source's
match order: '&' always; '"' only in attribute mode; '<' and '>' only in
text mode; every other character verbatim.  start_elem emits the tag name
and each attribute as name="value" with attribute-mode escaping;
write_text escapes in text mode. -/

/-- One character of XhtmlEscaped output (source match order). -/
def escapeChar (attrMode : Bool) (c : Char) : List Char :=
  if c = '&' then "&amp;".data
  else if c = '"' ∧ attrMode = true then "&quot;".data
  else if c = '<' ∧ attrMode = false then "&lt;".data
  else if c = '>' ∧ attrMode = false then "&gt;".data
  else [c]

/-- XhtmlEscaped as a function of the text and the mode flag. -/
def xhtmlEscaped (s : String) (attrMode : Bool) : String :=
  String.mk ((s.data.map (escapeChar attrMode)).flatten)

/-- XhtmlSerializer::start_elem (html namespace): the opening tag with
each attribute emitted as name="escaped value". -/
def start_elem (name : String) (attrs : List (String × String)) : String :=
  "<" ++ name ++
    String.join (attrs.map fun p =>
      " " ++ p.1 ++ "=\"" ++ xhtmlEscaped p.2 true ++ "\"") ++ ">"

/-- XhtmlSerializer::end_elem. -/
def end_elem (name : String) : String := "</" ++ name ++ ">"

/-- XhtmlSerializer::write_text. -/
def write_text (text : String) : String := xhtmlEscaped text false

/-- The attribute-mode escape table as the spec words it: & and " are
escaped, everything else (including < and >) passes through. -/
def escapeCharSpecAttr (c : Char) : List Char :=
  if c = '&' then "&amp;".data
  else if c = '"' then "&quot;".data
  else [c]

/-- The text-mode escape table as the spec words it: &, < and > are
escaped, everything else (including ") passes through. -/
def escapeCharSpecText (c : Char) : List Char :=
  if c = '&' then "&amp;".data
  else if c = '<' then "&lt;".data
  else if c = '>' then "&gt;".data
  else [c]

theorem escapeChar_attr_eq_spec (c : Char) :
    escapeChar true c = escapeCharSpecAttr c := by
  unfold escapeChar escapeCharSpecAttr
  by_cases h1 : c = '&'
  · simp [h1]
  · by_cases h2 : c = '"'
    · simp [h1, h2]
    · simp [h1, h2]

theorem escapeChar_text_eq_spec (c : Char) :
    escapeChar false c = escapeCharSpecText c := by
  unfold escapeChar escapeCharSpecText
  by_cases h1 : c = '&'
  · simp [h1]
  · by_cases h2 : c = '<'
    · simp [h1, h2]
    · by_cases h3 : c = '>'
      · simp [h1, h2, h3]
      · simp [h1, h2, h3]

/-- C6: the serializer's escaping is mode dependent — attribute mode maps
& to &amp; and " to &quot; and passes < and > through; text mode maps &,
<, > and leaves " alone; all other characters are unchanged in both
modes; attributes are emitted as name="value" with attribute-mode
escaping and text nodes with text-mode escaping. -/
theorem c6_escaping_modes (s name : String) (attrs : List (String × String)) :
    (∀ c : Char, escapeChar true c = escapeCharSpecAttr c) ∧
      (∀ c : Char, escapeChar false c = escapeCharSpecText c) ∧
      (∀ c : Char, c ≠ '&' → c ≠ '"' → c ≠ '<' → c ≠ '>' →
        escapeChar true c = [c] ∧ escapeChar false c = [c]) ∧
      xhtmlEscaped "<>" true = "<>" ∧
      xhtmlEscaped "&\"" true = "&amp;&quot;" ∧
      xhtmlEscaped "\"&<>" false = "\"&amp;&lt;&gt;" ∧
      start_elem name attrs = "<" ++ name ++
        String.join (attrs.map fun p =>
          " " ++ p.1 ++ "=\"" ++ xhtmlEscaped p.2 true ++ "\"") ++ ">" ∧
      write_text s = xhtmlEscaped s false := by
  refine ⟨escapeChar_attr_eq_spec, escapeChar_text_eq_spec,
    fun c h1 h2 h3 h4 => ⟨?_, ?_⟩, by decide, by decide, by decide, rfl, rfl⟩
  · unfold escapeChar
    simp [h1, h2, h3, h4]
  · unfold escapeChar
    simp [h1, h2, h3, h4]

/-! ## Inline style parsing (src/mon.rs parse_simple_style_attr) -/

/-- Split a character list at the FIRST occurrence of the separator
(str::split_once). -/
def splitOnceChar (sep : Char) : List Char → Option (List Char × List Char)
  | [] => none
  | c :: rest =>
    if c = sep then some ([], rest)
    else (splitOnceChar sep rest).map fun p => (c :: p.1, p.2)

/-- parse_simple_style_attr: split on ';', trim each entry, split at the
first ':' (entries without one dropped), trim key and value, insert into
a map (later duplicates overwrite). -/
def parse_simple_style_attr (style : String) : List (String × String) :=
  mapFromList ((splitOnChar ';' style.data).filterMap fun entry =>
    (splitOnceChar ':' (trimChars entry)).map fun p =>
      (String.mk (trimChars p.1), String.mk (trimChars p.2)))

/-- The style map of an optional style attribute (absent attribute gives
the empty map, as unwrap_or_default does). -/
def styleOf : Option String → List (String × String)
  | some s => parse_simple_style_attr s
  | none => []

/-- style.get("display").map_or(false, |d| d == "none"): is the node
hidden by its own inline style? -/
def styleHidden (style : Option String) : Bool :=
  match getA (styleOf style) "display" with
  | some d => d == "none"
  | none => false

/-! ## Gallery extraction and the flex flag (src/mon.rs lines 185-252) -/

/-- The attributes of a gallery img node and its surrounding link. -/
structure GalleryImg where
  attrs : ImgAttrs
  parentHref : Option String
  alt : Option String
  width : Option String
deriving DecidableEq, Repr

/-- A gallery cell: its style attribute, its first img descendant if
any, and its small-text caption descendant if any (plain text and inner
markup). -/
structure GalleryCell where
  style : Option String
  img : Option GalleryImg
  caption : Option (String × String)
deriving DecidableEq, Repr

/-- A gallery row: its style attribute, its text contents, and its
element-child cells. -/
structure GalleryRow where
  style : Option String
  text : String
  cells : List GalleryCell
deriving DecidableEq, Repr

/-- The extractor's image record. -/
structure MonImage where
  href : String
  alt : String
  width : Nat
  src : String
  caption_text : Option String
  caption_html : Option String
  flex : Bool
deriving DecidableEq, Repr

/-- The external collaborators the gallery loop consults: URL join (as a
Url for the resolver and as a rendered string for the href), the image
cache, percent-encoding, and the hq_pokemon_images flag. -/
structure GalleryCtx where
  join : String → Option Url
  joinStr : String → Option String
  cacheGet : Url → Option String
  encode : String → String
  hq : Bool

/-- The count of element-child cells whose own style does not hide
them. -/
def countVisibleCells (cells : List GalleryCell) : Nat :=
  (cells.filter fun td => !(styleHidden td.style)).length

/-- One gallery cell: hidden cells are skipped; a cell with an img makes
one MonImage (any resolution/cache/parse failure aborts); a cell without
an img is allowed only when the row text mentions "Archives". -/
def processCell (ctx : GalleryCtx) (rowText : String) (cnt : Nat)
    (td : GalleryCell) : Option (List MonImage) :=
  if styleHidden td.style then some []
  else
    match td.img with
    | some img =>
      match get_highest_quality_src img.attrs ctx.join ctx.hq with
      | none => none
      | some src =>
        match ctx.cacheGet src with
        | none => none
        | some imageId =>
          match ctx.joinStr (img.parentHref.getD "") with
          | none => none
          | some href =>
            match parseU32 (img.width.getD "") with
            | none => none
            | some width =>
              some [{ href := href, alt := img.alt.getD "", width := width,
                      src := "images/" ++ ctx.encode imageId,
                      caption_text := td.caption.map Prod.fst,
                      caption_html := td.caption.map Prod.snd,
                      flex := decide (cnt > 1) }]
    | none =>
      if containsSubstr rowText "Archives" then some [] else none

/-- The loop over a row's cells, pushing images in document order and
propagating the first failure. -/
def collectCells (ctx : GalleryCtx) (rowText : String) (cnt : Nat) :
    List GalleryCell → Option (List MonImage)
  | [] => some []
  | td :: rest =>
    match processCell ctx rowText cnt td with
    | none => none
    | some l =>
      match collectCells ctx rowText cnt rest with
      | none => none
      | some ls => some (l ++ ls)

/-- One gallery row: hidden rows contribute nothing; otherwise the
visible-cell count is taken and each cell processed. -/
def processRow (ctx : GalleryCtx) (row : GalleryRow) : Option (List MonImage) :=
  if styleHidden row.style then some []
  else collectCells ctx row.text (countVisibleCells row.cells) row.cells

theorem processCell_flex (ctx : GalleryCtx) (rowText : String) (cnt : Nat)
    (td : GalleryCell) (l : List MonImage)
    (h : processCell ctx rowText cnt td = some l) :
    ∀ img ∈ l, img.flex = decide (cnt > 1) := by
  unfold processCell at h
  split at h
  · rw [Option.some_inj] at h
    subst h
    intro img hm
    simp at hm
  · split at h
    · split at h
      · exact absurd h (by simp)
      · split at h
        · exact absurd h (by simp)
        · split at h
          · exact absurd h (by simp)
          · split at h
            · exact absurd h (by simp)
            · rw [Option.some_inj] at h
              subst h
              intro img hm
              simp only [List.mem_singleton] at hm
              subst hm
              rfl
    · split at h
      · rw [Option.some_inj] at h
        subst h
        intro img hm
        simp at hm
      · exact absurd h (by simp)

theorem collectCells_flex (ctx : GalleryCtx) (rowText : String) (cnt : Nat)
    (cells : List GalleryCell) (imgs : List MonImage)
    (h : collectCells ctx rowText cnt cells = some imgs) :
    ∀ img ∈ imgs, img.flex = decide (cnt > 1) := by
  induction cells generalizing imgs with
  | nil =>
    unfold collectCells at h
    rw [Option.some_inj] at h
    subst h
    intro img hm
    simp at hm
  | cons td rest ih =>
    unfold collectCells at h
    rcases hc : processCell ctx rowText cnt td with _ | l
    · rw [hc] at h; exact absurd h (by simp)
    · rw [hc] at h
      rcases hr : collectCells ctx rowText cnt rest with _ | ls
      · rw [hr] at h; exact absurd h (by simp)
      · rw [hr] at h
        rw [Option.some_inj] at h
        subst h
        intro img hm
        rcases List.mem_append.mp hm with hm | hm
        · exact processCell_flex ctx rowText cnt td l hc img hm
        · exact ih ls hr img hm

/-- C4: for a gallery row that is not style-hidden, every image record
the row produces has its flex flag set exactly when the number of the
row's cells not hidden by their own inline style exceeds one. -/
theorem c4_flex_flag (ctx : GalleryCtx) (row : GalleryRow)
    (imgs : List MonImage) (hrow : styleHidden row.style = false)
    (h : processRow ctx row = some imgs) :
    ∀ img ∈ imgs, img.flex = decide (countVisibleCells row.cells > 1) := by
  unfold processRow at h
  rw [hrow] at h
  simp only [Bool.false_eq_true, if_false] at h
  exact collectCells_flex ctx row.text (countVisibleCells row.cells)
    row.cells imgs h

/-- A concrete gallery context for the flex witness. -/
def exGalleryCtx : GalleryCtx :=
  { join := fun s => some
      { scheme := "https", host := some "example.org", port := none,
        path := "/" ++ s, query := none, fragment := none },
    joinStr := fun s => some ("https://example.org/" ++ s),
    cacheGet := fun _ => some "cached",
    encode := fun s => s,
    hq := false }

/-- A concrete gallery image cell. -/
def exGalleryCell : GalleryCell :=
  { style := none,
    img := some { attrs := { srcset := none, src := some "x.png" },
                  parentHref := some "page", alt := some "Alt",
                  width := some "250" },
    caption := none }

/-- A two-image row and a one-image row. -/
def exRow2 : GalleryRow :=
  { style := none, text := "", cells := [exGalleryCell, exGalleryCell] }

def exRow1 : GalleryRow :=
  { style := none, text := "", cells := [exGalleryCell] }

/-- The record both example rows produce (up to the flex flag). -/
def exMonImage (flex : Bool) : MonImage :=
  { href := "https://example.org/page", alt := "Alt", width := 250,
    src := "images/cached", caption_text := none, caption_html := none,
    flex := flex }

/-- C4 witness: the two-image row yields two records and their flex flag
is true (count 2 > 1); the one-image row's record has flex false. -/
theorem c4_flex_witness :
    processRow exGalleryCtx exRow2 =
        some [exMonImage true, exMonImage true] ∧
      (exMonImage true).flex = decide (countVisibleCells exRow2.cells > 1) ∧
      (exMonImage true).flex = true ∧
      processRow exGalleryCtx exRow1 = some [exMonImage false] ∧
      (exMonImage false).flex = false := by
  have h2 : processRow exGalleryCtx exRow2 =
      some [exMonImage true, exMonImage true] := by decide
  refine ⟨h2, ?_, rfl, by decide, rfl⟩
  exact c4_flex_flag exGalleryCtx exRow2 [exMonImage true, exMonImage true]
    (by decide) h2 (exMonImage true) (by simp)

/-! ## Link rewriting (src/mon.rs fix_links, lines 344-408)

The per-link transform (the body of the anchor loop): resolve the href
against the base URL; when the original href matches the internal-article
pattern and the resolved URL equals a page URL of the index, replace the
href with the cross-reference token and drop the title attribute;
otherwise set the href to the resolved URL. -/

/-- str::ends_with on string patterns. -/
def endsWithStr (s pat : String) : Bool :=
  listStartsWith s.data.reverse pat.data.reverse

theorem getA_removeA_self (m : List (String × String)) (k : String) :
    getA (removeA m k) k = none := by
  induction m with
  | nil => rfl
  | cons p rest ih =>
    by_cases hp : p.1 = k
    · simp [removeA, hp, ih]
    · simp [removeA, getA, hp, ih]

theorem getA_removeA_ne (m : List (String × String)) (k k' : String)
    (h : k' ≠ k) : getA (removeA m k) k' = getA m k' := by
  induction m with
  | nil => rfl
  | cons p rest ih =>
    by_cases hp : p.1 = k
    · simp [removeA, getA, hp, Ne.symm h, ih]
    · by_cases hpk : p.1 = k'
      · simp [removeA, getA, hp, hpk, h]
      · simp [removeA, getA, hp, hpk, ih]

/-- The id of the first index entry (in ascending id order) whose page
URL equals the given URL (index.pokemon_pages.iter().find). -/
def findPageId : List (Nat × String) → String → Option Nat
  | [], _ => none
  | p :: rest, url => if p.2 = url then some p.1 else findPageId rest url

/-- The internal-article pattern reserved for catalog subjects. -/
def isMonArticleHref (href : String) : Bool :=
  startsWithStr href "/wiki/" && endsWithStr href "_(Pok%C3%A9mon)"

/-- The cross-reference token for an id. -/
def crossRefToken (id : Nat) : String :=
  "x-dictionary:r:pokemon-" ++ String.mk (natDigits id)

/-- The anchor-loop body once the href is known. -/
def fixLinkHref (pages : List (Nat × String))
    (joinStr : String → Option String) (attrs : List (String × String))
    (href : String) : Option (List (String × String)) :=
  match joinStr href with
  | none => none
  | some urlStr =>
    if isMonArticleHref href then
      match findPageId pages urlStr with
      | some id =>
        some (insertA (removeA attrs "title") "href" (crossRefToken id))
      | none => some (insertA attrs "href" urlStr)
    else some (insertA attrs "href" urlStr)

/-- The anchor-loop body: links without an href are left alone. -/
def fixLinkAttrs (pages : List (Nat × String))
    (joinStr : String → Option String) (attrs : List (String × String)) :
    Option (List (String × String)) :=
  match getA attrs "href" with
  | none => some attrs
  | some href => fixLinkHref pages joinStr attrs href

/-- C5: for a link with an href whose resolution succeeds, the rewriter
replaces the href with the cross-reference token for the found id and
removes the title attribute exactly when the original href matches the
internal-article pattern and the resolved URL equals an index page URL;
in every other case the href becomes the resolved URL. -/
theorem c5_link_rewrite (pages : List (Nat × String))
    (joinStr : String → Option String)
    (attrs attrsOut : List (String × String)) (href urlStr : String)
    (hhref : getA attrs "href" = some href)
    (hjoin : joinStr href = some urlStr)
    (h : fixLinkAttrs pages joinStr attrs = some attrsOut) :
    (isMonArticleHref href = true →
      (∀ id, findPageId pages urlStr = some id →
        getA attrsOut "href" = some (crossRefToken id) ∧
          getA attrsOut "title" = none) ∧
      (findPageId pages urlStr = none →
        getA attrsOut "href" = some urlStr)) ∧
    (isMonArticleHref href = false →
      getA attrsOut "href" = some urlStr) := by
  unfold fixLinkAttrs at h
  rw [hhref] at h
  have h' : fixLinkHref pages joinStr attrs href = some attrsOut := h
  unfold fixLinkHref at h'
  rw [hjoin] at h'
  have h2 : (if isMonArticleHref href = true then
      match findPageId pages urlStr with
      | some id =>
        some (insertA (removeA attrs "title") "href" (crossRefToken id))
      | none => some (insertA attrs "href" urlStr)
    else some (insertA attrs "href" urlStr)) = some attrsOut := h'
  constructor
  · intro hpat
    rw [if_pos hpat] at h2
    constructor
    · intro id hid
      rw [hid, Option.some_inj] at h2
      subst h2
      exact ⟨getA_insertA_self _ _ _,
        by rw [getA_insertA_ne _ _ _ _ (by decide), getA_removeA_self]⟩
    · intro hnone
      rw [hnone, Option.some_inj] at h2
      subst h2
      exact getA_insertA_self _ _ _
  · intro hpat
    rw [if_neg (by rw [hpat]; exact fun hc => nomatch hc)] at h2
    rw [Option.some_inj] at h2
    subst h2
    exact getA_insertA_self _ _ _

/-- Concrete link-rewrite data for the C5 witness: an index with one
page, identity resolution, and a link with href, title and class. -/
def exPages : List (Nat × String) :=
  [(1, "/wiki/Bulbasaur_(Pok%C3%A9mon)")]

def exJoinStr (s : String) : Option String := some s

def exLinkAttrs : List (String × String) :=
  [("href", "/wiki/Bulbasaur_(Pok%C3%A9mon)"), ("title", "Bulbasaur"),
   ("class", "ex")]

/-- The rewritten attribute set for that link. -/
def exLinkOut : List (String × String) :=
  insertA (removeA exLinkAttrs "title") "href" (crossRefToken 1)

/-- C5 witness: the matching link's href becomes the cross-reference
token for id 1 and its title attribute is gone. -/
theorem c5_link_rewrite_witness :
    getA exLinkOut "href" = some (crossRefToken 1) ∧
      getA exLinkOut "title" = none := by
  have h := c5_link_rewrite exPages exJoinStr exLinkAttrs exLinkOut
    "/wiki/Bulbasaur_(Pok%C3%A9mon)" "/wiki/Bulbasaur_(Pok%C3%A9mon)"
    rfl rfl rfl
  exact (h.1 rfl).1 1 rfl

/-! ## The whole fix_links pass over a DOM subtree (for the frame claim)

A minimal owned DOM: elements with tag, attributes and children, and
text nodes.  select("...") in the source walks the node and its
descendants; the passes are modelled structurally: footnote markers
(sup.reference) are detached, every anchor's attributes go through
fixLinkAttrs, every img's attributes are rewritten from the resolved
cache identifier. -/

inductive Node where
  | elem : String → List (String × String) → List Node → Node
  | text : String → Node

/-- The first child of an element node. -/
def Node.firstChild : Node → Option Node
  | .elem _ _ (c :: _) => some c
  | _ => none

/-- The attribute list of an element node. -/
def Node.attrsOf : Node → List (String × String)
  | .elem _ a _ => a
  | .text _ => []

/-- The node reached by following a list of child indices. -/
def Node.getPath : Node → List Nat → Option Node
  | n, [] => some n
  | .elem _ _ cs, i :: is => (cs[i]?).bind fun c => c.getPath is
  | .text _, _ :: _ => none

/-- Does the class attribute contain the word (space-separated)? -/
def hasClassWord (attrs : List (String × String)) (w : String) : Bool :=
  match getA attrs "class" with
  | some cls => (splitOnChar ' ' cls.data).any fun c => String.mk c = w
  | none => false

/-- Is this element a footnote-reference marker (sup.reference)? -/
def isRefNode : Node → Bool
  | .elem tag attrs _ => tag = "sup" && hasClassWord attrs "reference"
  | .text _ => false

mutual

/-- Pass 1: detach every descendant sup.reference subtree. -/
def stripRefs : Node → Node
  | .text s => .text s
  | .elem tag attrs children => .elem tag attrs (stripRefsList children)

def stripRefsList : List Node → List Node
  | [] => []
  | c :: cs =>
    (if isRefNode c then [] else [stripRefs c]) ++ stripRefsList cs

end

mutual

/-- Pass 2: run the anchor-loop body on every anchor (the node and its
descendants); a failed href resolution aborts the pass. -/
def fixAnchors (pages : List (Nat × String))
    (joinStr : String → Option String) : Node → Option Node
  | .text s => some (.text s)
  | .elem tag attrs children =>
    match fixAnchorsList pages joinStr children with
    | none => none
    | some cs =>
      if tag = "a" then
        match fixLinkAttrs pages joinStr attrs with
        | none => none
        | some attrs2 => some (.elem tag attrs2 cs)
      else some (.elem tag attrs cs)

def fixAnchorsList (pages : List (Nat × String))
    (joinStr : String → Option String) : List Node → Option (List Node)
  | [] => some []
  | c :: cs =>
    match fixAnchors pages joinStr c with
    | none => none
    | some c2 =>
      match fixAnchorsList pages joinStr cs with
      | none => none
      | some cs2 => some (c2 :: cs2)

end

/-- The img-loop body: resolve the best source, obtain the cache id,
remove srcset, rewrite src to the cache path, and drop height when a
width is present. -/
def fixImgAttrs (join : String → Option Url) (cacheGet : Url → Option String)
    (encode : String → String) (hqBody : Bool)
    (attrs : List (String × String)) : Option (List (String × String)) :=
  match get_highest_quality_src
      { srcset := getA attrs "srcset", src := getA attrs "src" } join hqBody with
  | none => none
  | some src =>
    match cacheGet src with
    | none => none
    | some imageId =>
      let attrs := removeA attrs "srcset"
      let attrs := insertA attrs "src" ("images/" ++ encode imageId)
      some (if (getA attrs "width").isSome then removeA attrs "height"
        else attrs)

mutual

/-- Pass 3: run the img-loop body on every img (the node and its
descendants). -/
def fixImgs (join : String → Option Url) (cacheGet : Url → Option String)
    (encode : String → String) (hqBody : Bool) : Node → Option Node
  | .text s => some (.text s)
  | .elem tag attrs children =>
    match fixImgsList join cacheGet encode hqBody children with
    | none => none
    | some cs =>
      if tag = "img" then
        match fixImgAttrs join cacheGet encode hqBody attrs with
        | none => none
        | some attrs2 => some (.elem tag attrs2 cs)
      else some (.elem tag attrs cs)

def fixImgsList (join : String → Option Url) (cacheGet : Url → Option String)
    (encode : String → String) (hqBody : Bool) :
    List Node → Option (List Node)
  | [] => some []
  | c :: cs =>
    match fixImgs join cacheGet encode hqBody c with
    | none => none
    | some c2 =>
      match fixImgsList join cacheGet encode hqBody cs with
      | none => none
      | some cs2 => some (c2 :: cs2)

end

/-- The collaborators fix_links consults. -/
structure RewriteCtx where
  pages : List (Nat × String)
  joinStr : String → Option String
  join : String → Option Url
  cacheGet : Url → Option String
  encode : String → String
  hqBody : Bool

/-- fix_links: the three passes in source order. -/
def fix_links (ctx : RewriteCtx) (node : Node) : Option Node :=
  match fixAnchors ctx.pages ctx.joinStr (stripRefs node) with
  | none => none
  | some n2 => fixImgs ctx.join ctx.cacheGet ctx.encode ctx.hqBody n2

/-- A concrete rewrite context for the C10 counterexample. -/
def exRewriteCtx : RewriteCtx :=
  { pages := [],
    joinStr := fun s => some s,
    join := fun s => some
      { scheme := "https", host := some "example.org", port := none,
        path := "/" ++ s, query := none, fragment := none },
    cacheGet := fun _ => some "c1",
    encode := fun s => s,
    hqBody := false }

/-- A link wrapping an image, inside a table cell. -/
def exLinkWithImg : Node :=
  .elem "td" [] [.elem "a" [("href", "x")]
    [.elem "img" [("src", "i.png"), ("width", "5"), ("height", "5")] []]]

/-- What fix_links makes of it: the link's attributes survive, but its
child img is rewritten (src replaced, height dropped). -/
def exLinkWithImgOut : Node :=
  .elem "td" [] [.elem "a" [("href", "x")]
    [.elem "img" [("src", "images/c1"), ("width", "5")] []]]

/-- C10 (counterexample): fix_links does change the child subtree of a
hyperlink it visits — a link wrapping an img has that img's attributes
rewritten by the image pass, so the claim that the link's child subtree
is left unchanged fails. -/
theorem c10_subtree_changed_counterexample :
    fix_links exRewriteCtx exLinkWithImg = some exLinkWithImgOut ∧
      (exLinkWithImgOut.firstChild.bind Node.firstChild).map Node.attrsOf ≠
        (exLinkWithImg.firstChild.bind Node.firstChild).map Node.attrsOf := by
  constructor
  · simp [fix_links, exRewriteCtx, exLinkWithImg, exLinkWithImgOut,
      stripRefs, stripRefsList, isRefNode, hasClassWord, getA,
      fixAnchors, fixAnchorsList, fixLinkAttrs, fixLinkHref,
      isMonArticleHref, startsWithStr, endsWithStr, listStartsWith,
      insertA, fixImgs, fixImgsList, fixImgAttrs, removeA,
      get_highest_quality_src, srcSetMapWithDefault, srcSetMap,
      srcSetEntries, mapFromList, splitOnChar, rsplitOnceChar,
      get_image_thumbnail_origin, Url.domain, containsSubstr,
      listContainsSeq]
  · decide

/-- The anchor-loop body changes at most the href and title attribute
values, and it removes the title only when the href becomes a
cross-reference token. -/
theorem fixLinkAttrs_frame (pages : List (Nat × String))
    (joinStr : String → Option String)
    (attrs attrsOut : List (String × String))
    (h : fixLinkAttrs pages joinStr attrs = some attrsOut) :
    (∀ k, k ≠ "href" → k ≠ "title" → getA attrsOut k = getA attrs k) ∧
      (getA attrsOut "title" ≠ getA attrs "title" →
        getA attrsOut "title" = none ∧
          ∃ id, getA attrsOut "href" = some (crossRefToken id)) := by
  unfold fixLinkAttrs at h
  rcases hhref : getA attrs "href" with _ | href
  · rw [hhref, Option.some_inj] at h
    subst h
    exact ⟨fun k _ _ => rfl, fun hc => absurd rfl hc⟩
  · rw [hhref] at h
    have h' : fixLinkHref pages joinStr attrs href = some attrsOut := h
    unfold fixLinkHref at h'
    rcases hjoin : joinStr href with _ | urlStr
    · rw [hjoin] at h'
      exact absurd h' (by simp)
    · rw [hjoin] at h'
      have h2 : (if isMonArticleHref href = true then
          match findPageId pages urlStr with
          | some id =>
            some (insertA (removeA attrs "title") "href" (crossRefToken id))
          | none => some (insertA attrs "href" urlStr)
        else some (insertA attrs "href" urlStr)) = some attrsOut := h'
      by_cases hpat : isMonArticleHref href = true
      · rw [if_pos hpat] at h2
        rcases hfind : findPageId pages urlStr with _ | id
        · rw [hfind, Option.some_inj] at h2
          subst h2
          refine ⟨fun k hk1 _ => ?_, fun hc => ?_⟩
          · exact getA_insertA_ne _ _ _ _ hk1
          · rw [getA_insertA_ne _ _ _ _ (by decide)] at hc
            exact absurd rfl hc
        · rw [hfind, Option.some_inj] at h2
          subst h2
          refine ⟨fun k hk1 hk2 => ?_, fun _ => ?_⟩
          · rw [getA_insertA_ne _ _ _ _ hk1, getA_removeA_ne _ _ _ hk2]
          · refine ⟨?_, id, getA_insertA_self _ _ _⟩
            rw [getA_insertA_ne _ _ _ _ (by decide), getA_removeA_self]
      · rw [if_neg hpat, Option.some_inj] at h2
        subst h2
        refine ⟨fun k hk1 _ => getA_insertA_ne _ _ _ _ hk1, fun hc => ?_⟩
        rw [getA_insertA_ne _ _ _ _ (by decide)] at hc
        exact absurd rfl hc

theorem fixAnchorsList_get (pages : List (Nat × String))
    (js : String → Option String) (cs : List Node) :
    ∀ (cs2 : List Node), fixAnchorsList pages js cs = some cs2 →
      ∀ (i : Nat) (c : Node), cs[i]? = some c →
        ∃ c2, cs2[i]? = some c2 ∧ fixAnchors pages js c = some c2 := by
  induction cs with
  | nil =>
    intro cs2 h i c hc
    simp at hc
  | cons c0 cs ih =>
    intro cs2 h i c hc
    unfold fixAnchorsList at h
    rcases h0 : fixAnchors pages js c0 with _ | c02
    · rw [h0] at h; exact absurd h (by simp)
    · rw [h0] at h
      rcases hrest : fixAnchorsList pages js cs with _ | cs2'
      · rw [hrest] at h; exact absurd h (by simp)
      · rw [hrest, Option.some_inj] at h
        subst h
        cases i with
        | zero =>
          rw [List.getElem?_cons_zero, Option.some_inj] at hc
          subst hc
          exact ⟨c02, by simp, h0⟩
        | succ i =>
          rw [List.getElem?_cons_succ] at hc
          obtain ⟨c2, hc2, hf⟩ := ih cs2' hrest i c hc
          exact ⟨c2, by simpa using hc2, hf⟩

theorem fixAnchors_path (pages : List (Nat × String))
    (js : String → Option String) (p : List Nat) :
    ∀ (s u : Node), fixAnchors pages js s = some u →
      ∀ tag attrs cs, s.getPath p = some (.elem tag attrs cs) →
        ∃ attrs' cs', u.getPath p = some (.elem tag attrs' cs') ∧
          (tag = "a" → fixLinkAttrs pages js attrs = some attrs') ∧
          (tag ≠ "a" → attrs' = attrs) := by
  induction p with
  | nil =>
    intro s u h tag attrs cs hpath
    simp only [Node.getPath, Option.some_inj] at hpath
    subst hpath
    unfold fixAnchors at h
    rcases hcs : fixAnchorsList pages js cs with _ | cs2
    · rw [hcs] at h; exact absurd h (by simp)
    · rw [hcs] at h
      have h2 : (if tag = "a" then
          match fixLinkAttrs pages js attrs with
          | none => none
          | some attrs2 => some (Node.elem tag attrs2 cs2)
        else some (Node.elem tag attrs cs2)) = some u := h
      by_cases htag : tag = "a"
      · rw [if_pos htag] at h2
        rcases hat : fixLinkAttrs pages js attrs with _ | attrs2
        · rw [hat] at h2; exact absurd h2 (by simp)
        · rw [hat, Option.some_inj] at h2
          subst h2
          exact ⟨attrs2, cs2, rfl, fun _ => rfl, fun hne => absurd htag hne⟩
      · rw [if_neg htag, Option.some_inj] at h2
        subst h2
        exact ⟨attrs, cs2, rfl, fun heq => absurd heq htag, fun _ => rfl⟩
  | cons i is ih =>
    intro s u h tag attrs cs hpath
    cases s with
    | text t => simp [Node.getPath] at hpath
    | elem tag0 attrs0 cs0 =>
      unfold fixAnchors at h
      rcases hcs : fixAnchorsList pages js cs0 with _ | cs2
      · rw [hcs] at h; exact absurd h (by simp)
      · rw [hcs] at h
        have h2 : (if tag0 = "a" then
            match fixLinkAttrs pages js attrs0 with
            | none => none
            | some attrs2 => some (Node.elem tag0 attrs2 cs2)
          else some (Node.elem tag0 attrs0 cs2)) = some u := h
        have hu : ∃ attrs0', u = .elem tag0 attrs0' cs2 := by
          by_cases htag0 : tag0 = "a"
          · rw [if_pos htag0] at h2
            rcases hat : fixLinkAttrs pages js attrs0 with _ | a2
            · rw [hat] at h2; exact absurd h2 (by simp)
            · rw [hat, Option.some_inj] at h2
              exact ⟨a2, h2.symm⟩
          · rw [if_neg htag0, Option.some_inj] at h2
            exact ⟨attrs0, h2.symm⟩
        obtain ⟨attrs0', hu⟩ := hu
        subst hu
        simp only [Node.getPath] at hpath ⊢
        rcases hci : cs0[i]? with _ | c
        · rw [hci] at hpath; simp at hpath
        · rw [hci] at hpath
          simp only [Option.some_bind] at hpath
          obtain ⟨c2, hc2, hfc⟩ := fixAnchorsList_get pages js cs0 cs2 hcs i c hci
          rw [hc2]
          simp only [Option.some_bind]
          exact ih c c2 hfc tag attrs cs hpath

theorem fixImgsList_get (join : String → Option Url)
    (cacheGet : Url → Option String) (encode : String → String)
    (hqBody : Bool) (cs : List Node) :
    ∀ (cs2 : List Node), fixImgsList join cacheGet encode hqBody cs = some cs2 →
      ∀ (i : Nat) (c : Node), cs[i]? = some c →
        ∃ c2, cs2[i]? = some c2 ∧
          fixImgs join cacheGet encode hqBody c = some c2 := by
  induction cs with
  | nil =>
    intro cs2 h i c hc
    simp at hc
  | cons c0 cs ih =>
    intro cs2 h i c hc
    unfold fixImgsList at h
    rcases h0 : fixImgs join cacheGet encode hqBody c0 with _ | c02
    · rw [h0] at h; exact absurd h (by simp)
    · rw [h0] at h
      rcases hrest : fixImgsList join cacheGet encode hqBody cs with _ | cs2'
      · rw [hrest] at h; exact absurd h (by simp)
      · rw [hrest, Option.some_inj] at h
        subst h
        cases i with
        | zero =>
          rw [List.getElem?_cons_zero, Option.some_inj] at hc
          subst hc
          exact ⟨c02, by simp, h0⟩
        | succ i =>
          rw [List.getElem?_cons_succ] at hc
          obtain ⟨c2, hc2, hf⟩ := ih cs2' hrest i c hc
          exact ⟨c2, by simpa using hc2, hf⟩

theorem fixImgs_path (join : String → Option Url)
    (cacheGet : Url → Option String) (encode : String → String)
    (hqBody : Bool) (p : List Nat) :
    ∀ (s u : Node), fixImgs join cacheGet encode hqBody s = some u →
      ∀ tag attrs cs, s.getPath p = some (.elem tag attrs cs) →
        ∃ attrs' cs', u.getPath p = some (.elem tag attrs' cs') ∧
          (tag = "img" →
            fixImgAttrs join cacheGet encode hqBody attrs = some attrs') ∧
          (tag ≠ "img" → attrs' = attrs) := by
  induction p with
  | nil =>
    intro s u h tag attrs cs hpath
    simp only [Node.getPath, Option.some_inj] at hpath
    subst hpath
    unfold fixImgs at h
    rcases hcs : fixImgsList join cacheGet encode hqBody cs with _ | cs2
    · rw [hcs] at h; exact absurd h (by simp)
    · rw [hcs] at h
      have h2 : (if tag = "img" then
          match fixImgAttrs join cacheGet encode hqBody attrs with
          | none => none
          | some attrs2 => some (Node.elem tag attrs2 cs2)
        else some (Node.elem tag attrs cs2)) = some u := h
      by_cases htag : tag = "img"
      · rw [if_pos htag] at h2
        rcases hat : fixImgAttrs join cacheGet encode hqBody attrs with _ | attrs2
        · rw [hat] at h2; exact absurd h2 (by simp)
        · rw [hat, Option.some_inj] at h2
          subst h2
          exact ⟨attrs2, cs2, rfl, fun _ => rfl, fun hne => absurd htag hne⟩
      · rw [if_neg htag, Option.some_inj] at h2
        subst h2
        exact ⟨attrs, cs2, rfl, fun heq => absurd heq htag, fun _ => rfl⟩
  | cons i is ih =>
    intro s u h tag attrs cs hpath
    cases s with
    | text t => simp [Node.getPath] at hpath
    | elem tag0 attrs0 cs0 =>
      unfold fixImgs at h
      rcases hcs : fixImgsList join cacheGet encode hqBody cs0 with _ | cs2
      · rw [hcs] at h; exact absurd h (by simp)
      · rw [hcs] at h
        have h2 : (if tag0 = "img" then
            match fixImgAttrs join cacheGet encode hqBody attrs0 with
            | none => none
            | some attrs2 => some (Node.elem tag0 attrs2 cs2)
          else some (Node.elem tag0 attrs0 cs2)) = some u := h
        have hu : ∃ attrs0', u = .elem tag0 attrs0' cs2 := by
          by_cases htag0 : tag0 = "img"
          · rw [if_pos htag0] at h2
            rcases hat : fixImgAttrs join cacheGet encode hqBody attrs0
              with _ | a2
            · rw [hat] at h2; exact absurd h2 (by simp)
            · rw [hat, Option.some_inj] at h2
              exact ⟨a2, h2.symm⟩
          · rw [if_neg htag0, Option.some_inj] at h2
            exact ⟨attrs0, h2.symm⟩
        obtain ⟨attrs0', hu⟩ := hu
        subst hu
        simp only [Node.getPath] at hpath ⊢
        rcases hci : cs0[i]? with _ | c
        · rw [hci] at hpath; simp at hpath
        · rw [hci] at hpath
          simp only [Option.some_bind] at hpath
          obtain ⟨c2, hc2, hfc⟩ :=
            fixImgsList_get join cacheGet encode hqBody cs0 cs2 hcs i c hci
          rw [hc2]
          simp only [Option.some_bind]
          exact ih c c2 hfc tag attrs cs hpath

/-- C10 (amended): for every hyperlink element fix_links visits (an
anchor of the tree after footnote-marker removal; that removal never
edits a surviving element's attribute list), the whole function changes
at most that anchor's href and title attributes — every other attribute
keeps its value through all three passes — and the title attribute is
removed only when the href has been replaced by a cross-reference
token; the anchor's child subtree, however, may still be rewritten. -/
theorem c10_fix_links_link_frame (ctx : RewriteCtx) (t v : Node)
    (h : fix_links ctx t = some v) (p : List Nat)
    (attrs : List (String × String)) (cs : List Node)
    (hpath : (stripRefs t).getPath p = some (.elem "a" attrs cs)) :
    ∃ attrs' cs', v.getPath p = some (.elem "a" attrs' cs') ∧
      (∀ k, k ≠ "href" → k ≠ "title" → getA attrs' k = getA attrs k) ∧
      (getA attrs' "title" ≠ getA attrs "title" →
        getA attrs' "title" = none ∧
          ∃ id, getA attrs' "href" = some (crossRefToken id)) := by
  unfold fix_links at h
  rcases ha : fixAnchors ctx.pages ctx.joinStr (stripRefs t) with _ | u
  · rw [ha] at h; exact absurd h (by simp)
  · rw [ha] at h
    obtain ⟨attrs1, cs1, hu, h1, _⟩ :=
      fixAnchors_path ctx.pages ctx.joinStr p _ u ha "a" attrs cs hpath
    have hfa : fixLinkAttrs ctx.pages ctx.joinStr attrs = some attrs1 :=
      h1 rfl
    obtain ⟨attrs2, cs2, hv, _, himg2⟩ :=
      fixImgs_path ctx.join ctx.cacheGet ctx.encode ctx.hqBody p
        u v h "a" attrs1 cs1 hu
    have hattrs : attrs2 = attrs1 := himg2 (by decide)
    rw [hattrs] at hv
    obtain ⟨hframe, htitle⟩ :=
      fixLinkAttrs_frame ctx.pages ctx.joinStr attrs attrs1 hfa
    exact ⟨attrs1, cs2, hv, hframe, htitle⟩

/-- C10 witness: at the concrete link-wrapping-an-image tree, the whole
fix_links keeps every attribute of the link other than href and title,
and removes title only under token replacement. -/
theorem c10_fix_links_link_frame_witness :
    ∃ attrs' cs',
      exLinkWithImgOut.getPath [0] = some (.elem "a" attrs' cs') ∧
        (∀ k, k ≠ "href" → k ≠ "title" →
          getA attrs' k = getA [("href", "x")] k) ∧
        (getA attrs' "title" ≠ getA [("href", "x")] "title" →
          getA attrs' "title" = none ∧
            ∃ id, getA attrs' "href" = some (crossRefToken id)) :=
  c10_fix_links_link_frame exRewriteCtx exLinkWithImg exLinkWithImgOut
    (by simp [fix_links, exRewriteCtx, exLinkWithImg, exLinkWithImgOut,
      stripRefs, stripRefsList, isRefNode, hasClassWord, getA,
      fixAnchors, fixAnchorsList, fixLinkAttrs, fixLinkHref,
      isMonArticleHref, startsWithStr, endsWithStr, listStartsWith,
      insertA, fixImgs, fixImgsList, fixImgAttrs, removeA,
      get_highest_quality_src, srcSetMapWithDefault, srcSetMap,
      srcSetEntries, mapFromList, splitOnChar, rsplitOnceChar,
      get_image_thumbnail_origin, Url.domain, containsSubstr,
      listContainsSeq])
    [0] [("href", "x")]
    [.elem "img" [("src", "i.png"), ("width", "5"), ("height", "5")] []]
    (by simp [exLinkWithImg, stripRefs, stripRefsList, isRefNode,
      hasClassWord, getA, Node.getPath])

end Dictgen
